import Mathlib

/-!
Verification development for the `fetch` repository (src/fetch.rs).

The source is a Rust program that queries a text-generation endpoint,
decodes its chunked newline-delimited JSON stream, extracts structured
insights from the decoded text, and merges them into an in-memory
knowledge graph.  This file shallowly embeds the relevant functions:

* `utf8Lossy`        models `String::from_utf8_lossy` (bytes → chars,
  one replacement character per maximal invalid subpart);
* `get_streamed_text` models the streaming decoder loop of
  `get_streamed_text` in src/fetch.rs (lines 92-126);
* `Knowledge` and its `add_*` operations model the `Knowledge` struct
  (lines 29-66), with `HashMap`/`HashSet` represented as association
  lists / duplicate-free insertion lists;
* `jsonFromStr` and the record decoders model the used fragment of
  `serde_json::from_str` for `ResponseChunk` and `Vec<StructuredInsight>`;
* `extract_json_block` and `extract_insights_step` model
  `extract_json_block` (lines 205-209) and the parse-and-merge phase of
  `extract_insights` (lines 240-271); a Rust panic is modelled as
  `Except.error`.

Machine strings are represented as `List Char`; raw stream bytes as
`List Nat` (each entry < 256).
-/

namespace Fetch

/-! ## Character and byte helpers -/

/-- The `"` character. -/
def quoteChar : Char := '\"'

/-- The `\` character. -/
def backslashChar : Char := '\\'

/-- The opening curly brace character. -/
def lbraceChar : Char := Char.ofNat 0x7B

/-- The closing curly brace character. -/
def rbraceChar : Char := Char.ofNat 0x7D

/-- The `[` character. -/
def lbrackChar : Char := '['

/-- The `]` character. -/
def rbrackChar : Char := ']'

/-- The linefeed character, `'\n'`. -/
def lfChar : Char := '\n'

/-- The Unicode replacement character U+FFFD, used by
`String::from_utf8_lossy` for invalid byte sequences. -/
def replChar : Char := Char.ofNat 0xFFFD

/-- ASCII chars of a Lean string literal to raw bytes (valid for ASCII-only
literals, which is all we use it for). -/
def asciiBytes (s : String) : List Nat := s.toList.map Char.toNat

/-! ## `String::from_utf8_lossy`

Rust decodes each byte chunk permissively: every maximal invalid subpart
of the byte sequence (per the WHATWG / `core::str` incremental validity
rules, including a truncated multi-byte sequence at the end) is replaced
by a single U+FFFD.  `utf8Lossy` reproduces that byte-level automaton. -/

/-- Is `b` a UTF-8 continuation byte (`0x80..=0xBF`)? -/
def isCont (b : Nat) : Bool := decide (0x80 ≤ b ∧ b ≤ 0xBF)

/-- Admissible range of the first continuation byte after lead `b`
(the special constraints for `0xE0`, `0xED`, `0xF0`, `0xF4` rule out
overlong encodings, surrogates and values above U+10FFFF). -/
def cont1ok (b b1 : Nat) : Bool :=
  if b = 0xE0 then decide (0xA0 ≤ b1 ∧ b1 ≤ 0xBF)
  else if b = 0xED then decide (0x80 ≤ b1 ∧ b1 ≤ 0x9F)
  else if b = 0xF0 then decide (0x90 ≤ b1 ∧ b1 ≤ 0xBF)
  else if b = 0xF4 then decide (0x80 ≤ b1 ∧ b1 ≤ 0x8F)
  else isCont b1

/-- One step of the lossy decoder: given a first byte `b` and the bytes
after it, produce the decoded character (a real character or U+FFFD) and
the bytes remaining after the consumed maximal subpart. -/
def utf8Step (b : Nat) (rest : List Nat) : Char × List Nat :=
  if b ≤ 0x7F then
    (Char.ofNat b, rest)
  else if 0xC2 ≤ b ∧ b ≤ 0xDF then
    match rest with
    | b1 :: r2 =>
      if isCont b1 then
        (Char.ofNat ((b - 0xC0) * 64 + (b1 - 0x80)), r2)
      else (replChar, rest)
    | [] => (replChar, [])
  else if 0xE0 ≤ b ∧ b ≤ 0xEF then
    match rest with
    | b1 :: r2 =>
      if cont1ok b b1 then
        match r2 with
        | b2 :: r3 =>
          if isCont b2 then
            (Char.ofNat ((b - 0xE0) * 4096 + (b1 - 0x80) * 64 + (b2 - 0x80)), r3)
          else (replChar, r2)
        | [] => (replChar, [])
      else (replChar, rest)
    | [] => (replChar, [])
  else if 0xF0 ≤ b ∧ b ≤ 0xF4 then
    match rest with
    | b1 :: r2 =>
      if cont1ok b b1 then
        match r2 with
        | b2 :: r3 =>
          if isCont b2 then
            match r3 with
            | b3 :: r4 =>
              if isCont b3 then
                (Char.ofNat ((b - 0xF0) * 262144 + (b1 - 0x80) * 4096 +
                    (b2 - 0x80) * 64 + (b3 - 0x80)), r4)
              else (replChar, r3)
            | [] => (replChar, [])
          else (replChar, r2)
        | [] => (replChar, [])
      else (replChar, rest)
    | [] => (replChar, [])
  else
    (replChar, rest)

/-- A decoding step never lengthens the remaining byte list. -/
theorem utf8Step_len (b : Nat) (rest : List Nat) :
    (utf8Step b rest).2.length ≤ rest.length := by
  unfold utf8Step
  repeat' split
  all_goals simp_all
  all_goals omega

/-- Decoder loop with a structural fuel argument.  Each step consumes at
least the lead byte, so any fuel of at least the list length never hits
the artificial `0` case (see `utf8LossyGo_fuel`). -/
def utf8LossyGo : Nat → List Nat → List Char
  | _, [] => []
  | 0, _ :: _ => []
  | fuel + 1, b :: rest => (utf8Step b rest).1 :: utf8LossyGo fuel (utf8Step b rest).2

/-- Any sufficient fuel computes the same decoding, so `utf8Lossy` below
does not depend on the fuel choice. -/
theorem utf8LossyGo_fuel : ∀ (n m : Nat) (l : List Nat), l.length ≤ n → l.length ≤ m →
    utf8LossyGo n l = utf8LossyGo m l := by
  intro n
  induction n with
  | zero =>
    intro m l hn _
    have hl : l = [] := List.eq_nil_of_length_eq_zero (Nat.le_zero.mp hn)
    subst hl
    cases m <;> rfl
  | succ n ih =>
    intro m l hn hm
    cases l with
    | nil => cases m <;> rfl
    | cons b rest =>
      cases m with
      | zero => simp at hm
      | succ m =>
        simp only [utf8LossyGo]
        have hlen := utf8Step_len b rest
        have hn2 : rest.length ≤ n := by simp [List.length_cons] at hn; omega
        have hm2 : rest.length ≤ m := by simp [List.length_cons] at hm; omega
        congr 1
        exact ih m _ (Nat.le_trans hlen hn2) (Nat.le_trans hlen hm2)

/-- Model of `String::from_utf8_lossy` on a byte list. -/
def utf8Lossy (l : List Nat) : List Char := utf8LossyGo l.length l

/-! ## Rust `str::trim` -/

/-- Rust `char::is_whitespace`: the Unicode `White_Space` property. -/
def rustIsWs (c : Char) : Bool :=
  decide (c.toNat = 0x09 ∨ c.toNat = 0x0A ∨ c.toNat = 0x0B ∨ c.toNat = 0x0C ∨
    c.toNat = 0x0D ∨ c.toNat = 0x20 ∨ c.toNat = 0x85 ∨ c.toNat = 0xA0 ∨
    c.toNat = 0x1680 ∨ (0x2000 ≤ c.toNat ∧ c.toNat ≤ 0x200A) ∨
    c.toNat = 0x2028 ∨ c.toNat = 0x2029 ∨ c.toNat = 0x202F ∨
    c.toNat = 0x205F ∨ c.toNat = 0x3000)

/-- Model of Rust `str::trim`. -/
def trimList (l : List Char) : List Char :=
  ((l.dropWhile rustIsWs).reverse.dropWhile rustIsWs).reverse

/-! ## The knowledge graph (`Knowledge`, src/fetch.rs lines 29-66)

`HashSet<String>` is modelled as a duplicate-free `List (List Char)`
with membership-checked insertion; `HashMap<String, Concept>` as an
association list where `entry(..).or_default()` appends a default entry
when the key is missing and otherwise edits the entry in place. -/

/-- `HashSet::insert`: add `x` unless already present. -/
def insertStr (x : List Char) (s : List (List Char)) : List (List Char) :=
  if x ∈ s then s else s ++ [x]

/-- The `Concept` struct (src/fetch.rs lines 30-35). -/
structure Concept where
  definition : Option (List Char)
  examples : List (List Char)
  related_concepts : List (List Char)
  subtopics : List (List Char)
deriving DecidableEq, Repr

/-- `Concept::default()`: `None` definition and empty sets. -/
def defaultConcept : Concept := ⟨none, [], [], []⟩

/-- The `Knowledge` struct (src/fetch.rs lines 37-40). -/
structure Knowledge where
  concepts : List (List Char × Concept)
deriving DecidableEq, Repr

/-- `HashMap` lookup on the association list. -/
def lookupEntry : List (List Char × Concept) → List Char → Option Concept
  | [], _ => none
  | (k0, c0) :: rest, k => if k0 = k then some c0 else lookupEntry rest k

/-- `self.concepts.entry(k).or_default()` followed by an in-place edit `f`
of the entry's value. -/
def updateEntry : List (List Char × Concept) → List Char → (Concept → Concept) →
    List (List Char × Concept)
  | [], k, f => [(k, f defaultConcept)]
  | (k0, c0) :: rest, k, f =>
    if k0 = k then (k0, f c0) :: rest else (k0, c0) :: updateEntry rest k f

/-- `Knowledge::add_concept` (lines 43-45). -/
def Knowledge.add_concept (g : Knowledge) (k : List Char) : Knowledge :=
  ⟨updateEntry g.concepts k id⟩

/-- `Knowledge::add_related_concept` (lines 47-50). -/
def Knowledge.add_related_concept (g : Knowledge) (k r : List Char) : Knowledge :=
  ⟨updateEntry g.concepts k
    (fun c => { c with related_concepts := insertStr r c.related_concepts })⟩

/-- `Knowledge::add_definition` (lines 52-55). -/
def Knowledge.add_definition (g : Knowledge) (k d : List Char) : Knowledge :=
  ⟨updateEntry g.concepts k (fun c => { c with definition := some d })⟩

/-- `Knowledge::add_example` (lines 57-60). -/
def Knowledge.add_example (g : Knowledge) (k e : List Char) : Knowledge :=
  ⟨updateEntry g.concepts k (fun c => { c with examples := insertStr e c.examples })⟩

/-- `Knowledge::add_subtopic` (lines 62-65). -/
def Knowledge.add_subtopic (g : Knowledge) (k s : List Char) : Knowledge :=
  ⟨updateEntry g.concepts k (fun c => { c with subtopics := insertStr s c.subtopics })⟩

/-- The distinguished root concept name `"General"`. -/
def generalName : List Char := ("General").toList

/-- The `StructuredInsight` struct (src/fetch.rs lines 20-27): five
independently optional string fields. -/
structure StructuredInsight where
  topic : Option (List Char)
  concept : Option (List Char)
  definition : Option (List Char)
  «example» : Option (List Char)
  subtopic : Option (List Char)
deriving DecidableEq, Repr

/-- The body of the per-insight merge loop in `extract_insights`
(src/fetch.rs lines 244-266). -/
def applyInsight (g : Knowledge) (i : StructuredInsight) : Knowledge :=
  let g1 :=
    match i.concept with
    | some c =>
      let gA := g.add_concept c
      let gB := match i.topic with
        | some t => gA.add_related_concept c t
        | none => gA
      let gC := match i.definition with
        | some d => gB.add_definition c d
        | none => gB
      match i.«example» with
      | some e => gC.add_example c e
      | none => gC
    | none => g
  match i.subtopic with
  | some s => if s = [] then g1 else g1.add_subtopic generalName s
  | none => g1

/-! ## The used fragment of `serde_json`

The source parses two shapes with `serde_json::from_str`: a
`ResponseChunk` (one JSON object with a string field `response` and a
boolean field `done`; unknown fields ignored, duplicates rejected) and a
`Vec<StructuredInsight>` (a JSON array of objects with five optional
string fields).  `jsonFromStr` is a standard JSON grammar parser
(recursive descent with a fuel argument bounded by the input length)
and the two decoders implement the derived `Deserialize` behaviour. -/

/-- JSON values.  Number lexemes are kept as their source characters:
no parsed field of the program has a numeric type. -/
inductive Json where
  | jnull
  | jbool (b : Bool)
  | jnum (lexeme : List Char)
  | jstr (s : List Char)
  | jarr (elems : List Json)
  | jobj (fields : List (List Char × Json))

/-- JSON insignificant whitespace. -/
def jsonWs (c : Char) : Bool := c = ' ' ∨ c = '\t' ∨ c = '\n' ∨ c = '\r'

/-- Drop leading JSON whitespace. -/
def skipWs (l : List Char) : List Char := l.dropWhile jsonWs

/-- Value of one hexadecimal digit. -/
def hexDigitVal (c : Char) : Option Nat :=
  if 48 ≤ c.toNat ∧ c.toNat ≤ 57 then some (c.toNat - 48)
  else if 97 ≤ c.toNat ∧ c.toNat ≤ 102 then some (c.toNat - 87)
  else if 65 ≤ c.toNat ∧ c.toNat ≤ 70 then some (c.toNat - 55)
  else none

/-- Four hexadecimal digits of a `\uXXXX` escape. -/
def parseHex4 : List Char → Option (Nat × List Char)
  | a :: b :: c :: d :: rest =>
    match hexDigitVal a, hexDigitVal b, hexDigitVal c, hexDigitVal d with
    | some x, some y, some z, some w => some ((((x * 16 + y) * 16 + z) * 16 + w), rest)
    | _, _, _, _ => none
  | _ => none

/-- Body of a JSON string after its opening quote: returns the decoded
content and the input after the closing quote.  Escapes follow the JSON
grammar; a `\uXXXX` high surrogate must be followed by a low surrogate
(as in `serde_json`), and unescaped control characters are rejected. -/
def parseStringRest : Nat → List Char → Option (List Char × List Char)
  | 0, _ => none
  | _ + 1, [] => none
  | fuel + 1, c :: rest =>
    if c = quoteChar then some ([], rest)
    else if c = backslashChar then
      match rest with
      | [] => none
      | e :: rest2 =>
        if e = quoteChar then
          (parseStringRest fuel rest2).map (fun p => (quoteChar :: p.1, p.2))
        else if e = backslashChar then
          (parseStringRest fuel rest2).map (fun p => (backslashChar :: p.1, p.2))
        else if e = '/' then
          (parseStringRest fuel rest2).map (fun p => ('/' :: p.1, p.2))
        else if e = 'b' then
          (parseStringRest fuel rest2).map (fun p => (Char.ofNat 8 :: p.1, p.2))
        else if e = 'f' then
          (parseStringRest fuel rest2).map (fun p => (Char.ofNat 12 :: p.1, p.2))
        else if e = 'n' then
          (parseStringRest fuel rest2).map (fun p => ('\n' :: p.1, p.2))
        else if e = 'r' then
          (parseStringRest fuel rest2).map (fun p => (Char.ofNat 13 :: p.1, p.2))
        else if e = 't' then
          (parseStringRest fuel rest2).map (fun p => ('\t' :: p.1, p.2))
        else if e = 'u' then
          match parseHex4 rest2 with
          | none => none
          | some (n, rest3) =>
            if 0xD800 ≤ n ∧ n ≤ 0xDBFF then
              match rest3 with
              | u1 :: u2 :: rest4 =>
                if u1 = backslashChar ∧ u2 = 'u' then
                  match parseHex4 rest4 with
                  | some (m, rest5) =>
                    if 0xDC00 ≤ m ∧ m ≤ 0xDFFF then
                      (parseStringRest fuel rest5).map
                        (fun p =>
                          (Char.ofNat (0x10000 + (n - 0xD800) * 0x400 + (m - 0xDC00)) :: p.1,
                            p.2))
                    else none
                  | none => none
                else none
              | _ => none
            else if 0xDC00 ≤ n ∧ n ≤ 0xDFFF then none
            else (parseStringRest fuel rest3).map (fun p => (Char.ofNat n :: p.1, p.2))
        else none
    else if c.toNat < 0x20 then none
    else (parseStringRest fuel rest).map (fun p => (c :: p.1, p.2))

/-- Digit span. -/
def spanDigits (l : List Char) : List Char × List Char := List.span Char.isDigit l

/-- After the trimmed number's integer part: optional `.digits` and
optional exponent (helper of `parseNumber`); returns consumed lexeme
characters and the rest.  An ill-formed fraction or exponent is simply
not consumed, which makes the overall parse fail on the stray chars. -/
def parseFracExp (l : List Char) : List Char × List Char :=
  let (fracLex, l1) :=
    match l with
    | c :: r =>
      if c = '.' then
        match spanDigits r with
        | ([], _) => (([] : List Char), l)
        | (ds, r2) => (c :: ds, r2)
      else (([] : List Char), l)
    | [] => (([] : List Char), l)
  let (expLex, l2) :=
    match l1 with
    | c :: r =>
      if c = 'e' ∨ c = 'E' then
        let (sgn, r1) :=
          match r with
          | s :: r0 => if s = '+' ∨ s = '-' then ([s], r0) else (([] : List Char), r)
          | [] => (([] : List Char), r)
        match spanDigits r1 with
        | ([], _) => (([] : List Char), l1)
        | (ds, r2) => (c :: (sgn ++ ds), r2)
      else (([] : List Char), l1)
    | [] => (([] : List Char), l1)
  (fracLex ++ expLex, l2)

/-- A JSON number lexeme starting at the head of the input: optional minus,
integer part without leading zeros, optional fraction, optional exponent.
Returns the lexeme and the rest. -/
def parseNumber (l : List Char) : Option (List Char × List Char) :=
  let (negLex, l1) :=
    match l with
    | c :: r => if c = '-' then ([c], r) else (([] : List Char), l)
    | [] => (([] : List Char), l)
  match l1 with
  | [] => none
  | c :: r =>
    if c = '0' then
      let (fracLex, l2) := parseFracExp r
      some (negLex ++ [c] ++ fracLex, l2)
    else if c.isDigit then
      let (ds, r2) := spanDigits r
      let (fracLex, l2) := parseFracExp r2
      some (negLex ++ (c :: ds) ++ fracLex, l2)
    else none

mutual

/-- One JSON value starting at the head of the input (after leading
whitespace); returns the value and the unconsumed rest. -/
def parseVal : Nat → List Char → Option (Json × List Char)
  | 0, _ => none
  | fuel + 1, l =>
    match skipWs l with
    | [] => none
    | c :: rest =>
      if c = quoteChar then
        (parseStringRest fuel rest).map (fun p => (Json.jstr p.1, p.2))
      else if c = lbraceChar then
        match skipWs rest with
        | c2 :: rest2 =>
          if c2 = rbraceChar then some (Json.jobj [], rest2)
          else (parseMembers fuel (c2 :: rest2)).map (fun p => (Json.jobj p.1, p.2))
        | [] => none
      else if c = lbrackChar then
        match skipWs rest with
        | c2 :: rest2 =>
          if c2 = rbrackChar then some (Json.jarr [], rest2)
          else (parseElems fuel (c2 :: rest2)).map (fun p => (Json.jarr p.1, p.2))
        | [] => none
      else if c = 't' then
        match rest with
        | 'r' :: 'u' :: 'e' :: r => some (Json.jbool true, r)
        | _ => none
      else if c = 'f' then
        match rest with
        | 'a' :: 'l' :: 's' :: 'e' :: r => some (Json.jbool false, r)
        | _ => none
      else if c = 'n' then
        match rest with
        | 'u' :: 'l' :: 'l' :: r => some (Json.jnull, r)
        | _ => none
      else if c = '-' ∨ c.isDigit then
        (parseNumber (c :: rest)).map (fun p => (Json.jnum p.1, p.2))
      else none

/-- Comma-separated array elements up to and including the closing `]`. -/
def parseElems : Nat → List Char → Option (List Json × List Char)
  | 0, _ => none
  | fuel + 1, l =>
    match parseVal fuel l with
    | none => none
    | some (v, rest) =>
      match skipWs rest with
      | c :: rest2 =>
        if c = ',' then (parseElems fuel rest2).map (fun p => (v :: p.1, p.2))
        else if c = rbrackChar then some ([v], rest2)
        else none
      | [] => none

/-- Comma-separated object members (starting at a key quote) up to and
including the closing brace. -/
def parseMembers : Nat → List Char → Option (List (List Char × Json) × List Char)
  | 0, _ => none
  | fuel + 1, l =>
    match l with
    | c :: rest =>
      if c = quoteChar then
        match parseStringRest fuel rest with
        | none => none
        | some (key, rest2) =>
          match skipWs rest2 with
          | c2 :: rest3 =>
            if c2 = ':' then
              match parseVal fuel rest3 with
              | none => none
              | some (v, rest4) =>
                match skipWs rest4 with
                | c3 :: rest5 =>
                  if c3 = ',' then
                    (parseMembers fuel (skipWs rest5)).map
                      (fun p => ((key, v) :: p.1, p.2))
                  else if c3 = rbraceChar then some ([(key, v)], rest5)
                  else none
                | [] => none
            else none
          | [] => none
      else none
    | [] => none

end

/-- `serde_json::from_str` up to the typed decoding: parse one JSON value
and require only whitespace after it. -/
def jsonFromStr (l : List Char) : Option Json :=
  match parseVal (2 * l.length + 8) l with
  | some (v, rest) => if skipWs rest = [] then some v else none
  | none => none

/-! ## Typed decoding of the two deserialized shapes -/

/-- The `ResponseChunk` struct (src/fetch.rs lines 13-18). -/
structure ResponseChunk where
  response : List Char
  done : Bool
deriving DecidableEq, Repr

/-- Field walk of the derived `Deserialize` for `ResponseChunk`:
recognized fields must appear exactly once with the right type, unknown
fields are ignored. -/
def decodeRCFields : List (List Char × Json) → Option (List Char) → Option Bool →
    Option ResponseChunk
  | [], some r, some d => some ⟨r, d⟩
  | [], _, _ => none
  | (k, v) :: fs, r, d =>
    if k = ("response").toList then
      match r, v with
      | none, Json.jstr s => decodeRCFields fs (some s) d
      | _, _ => none
    else if k = ("done").toList then
      match d, v with
      | none, Json.jbool b => decodeRCFields fs r (some b)
      | _, _ => none
    else decodeRCFields fs r d

/-- `serde_json::from_str::<ResponseChunk>` on a line. -/
def parseResponseChunk (l : List Char) : Option ResponseChunk :=
  match jsonFromStr l with
  | some (Json.jobj fs) => decodeRCFields fs none none
  | _ => none

/-- One `Option<String>` field value: a string or `null`. -/
def decodeStrField : Json → Option (Option (List Char))
  | Json.jstr s => some (some s)
  | Json.jnull => some none
  | _ => none

/-- Field walk of the derived `Deserialize` for `StructuredInsight`: the
five known fields are optional (absent or `null` means `None`), may not
repeat, and must be strings or `null`; unknown fields are ignored. -/
def decodeSIFields : List (List Char × Json) →
    Option (Option (List Char)) → Option (Option (List Char)) →
    Option (Option (List Char)) → Option (Option (List Char)) →
    Option (Option (List Char)) → Option StructuredInsight
  | [], t, c, d, e, s =>
    some ⟨t.getD none, c.getD none, d.getD none, e.getD none, s.getD none⟩
  | (k, v) :: fs, t, c, d, e, s =>
    if k = ("topic").toList then
      match t, decodeStrField v with
      | none, some tv => decodeSIFields fs (some tv) c d e s
      | _, _ => none
    else if k = ("concept").toList then
      match c, decodeStrField v with
      | none, some cv => decodeSIFields fs t (some cv) d e s
      | _, _ => none
    else if k = ("definition").toList then
      match d, decodeStrField v with
      | none, some dv => decodeSIFields fs t c (some dv) e s
      | _, _ => none
    else if k = ("example").toList then
      match e, decodeStrField v with
      | none, some ev => decodeSIFields fs t c d (some ev) s
      | _, _ => none
    else if k = ("subtopic").toList then
      match s, decodeStrField v with
      | none, some sv => decodeSIFields fs t c d e (some sv)
      | _, _ => none
    else decodeSIFields fs t c d e s

/-- Decoding one array element as a `StructuredInsight`. -/
def decodeInsight : Json → Option StructuredInsight
  | Json.jobj fs => decodeSIFields fs none none none none none
  | _ => none

/-- `serde_json::from_str::<Vec<StructuredInsight>>`. -/
def parseInsightArray (l : List Char) : Option (List StructuredInsight) :=
  match jsonFromStr l with
  | some (Json.jarr es) => es.mapM decodeInsight
  | _ => none

/-- Folding a parsed batch of insights over the graph (the `for insight in
insights` loop). -/
def applyInsights (g : Knowledge) (l : List StructuredInsight) : Knowledge :=
  l.foldl applyInsight g

/-! ## The stream decoder (`get_streamed_text`, src/fetch.rs lines 92-126)

The Rust loop pulls byte chunks from the network, decodes each chunk with
`from_utf8_lossy`, appends the decoded text to a line buffer, and processes
every complete (newline-terminated) line in the buffer: the line is
trimmed, empty lines are skipped, and each remaining line is parsed as a
`ResponseChunk`; on success its `response` is appended to the accumulated
text and a true `done` flag returns the accumulated text immediately; a
parse failure only logs a warning.  When the stream ends, the accumulated
text is returned and whatever remains in the buffer is dropped.  The early
`return` is modelled by a `finished` flag that freezes the state. -/

/-- Split a char list at its first newline: `some (line, rest)` when a
newline exists (`buffer.find('\n')` plus the two slices), else `none`. -/
def splitAtNewline : List Char → Option (List Char × List Char)
  | [] => none
  | c :: cs =>
    if c = lfChar then some ([], cs)
    else (splitAtNewline cs).map (fun p => (c :: p.1, p.2))

/-- Splitting at a newline strictly shrinks the buffer. -/
theorem splitAtNewline_len : ∀ {l line rest : List Char},
    splitAtNewline l = some (line, rest) → rest.length < l.length := by
  intro l
  induction l with
  | nil => intro line rest h; simp [splitAtNewline] at h
  | cons c cs ih =>
    intro line rest h
    simp only [splitAtNewline] at h
    by_cases hc : c = lfChar
    · rw [if_pos hc] at h
      cases h
      simp
    · rw [if_neg hc] at h
      cases hsp : splitAtNewline cs with
      | none => rw [hsp] at h; simp at h
      | some p =>
        obtain ⟨p1, p2⟩ := p
        rw [hsp] at h
        simp only [Option.map_some'] at h
        cases h
        have := ih hsp
        simp only [List.length_cons]
        omega

/-- The line loop with a structural fuel argument.  Splitting at a
newline strictly shrinks the buffer, so any fuel of at least the buffer
length never hits the artificial `0` case (see `processBufferGo_fuel`). -/
def processBufferGo : Nat → List Char → List Char → List Char × List Char × Bool
  | 0, fullText, buffer => (fullText, buffer, false)
  | fuel + 1, fullText, buffer =>
    match splitAtNewline buffer with
    | none => (fullText, buffer, false)
    | some (line, rest) =>
      let tl := trimList line
      if tl = [] then processBufferGo fuel fullText rest
      else
        match parseResponseChunk tl with
        | some rc =>
          if rc.done then (fullText ++ rc.response, rest, true)
          else processBufferGo fuel (fullText ++ rc.response) rest
        | none => processBufferGo fuel fullText rest

/-- Any sufficient fuel runs the line loop to the same result, so
`processBuffer` below does not depend on the fuel choice. -/
theorem processBufferGo_fuel : ∀ (n m : Nat) (ft b : List Char), b.length ≤ n →
    b.length ≤ m → processBufferGo n ft b = processBufferGo m ft b := by
  intro n
  induction n with
  | zero =>
    intro m ft b hn _
    have hb : b = [] := List.eq_nil_of_length_eq_zero (Nat.le_zero.mp hn)
    subst hb
    cases m <;> rfl
  | succ n ih =>
    intro m ft b hn hm
    cases m with
    | zero =>
      have hb : b = [] := List.eq_nil_of_length_eq_zero (Nat.le_zero.mp hm)
      subst hb
      rfl
    | succ m =>
      simp only [processBufferGo]
      cases hsp : splitAtNewline b with
      | none => rfl
      | some p =>
        obtain ⟨line, rest⟩ := p
        have hr := splitAtNewline_len hsp
        have h1 : rest.length ≤ n := by omega
        have h2 : rest.length ≤ m := by omega
        by_cases htl : trimList line = []
        · simp [htl, ih m _ rest h1 h2]
        · cases hp : parseResponseChunk (trimList line) with
          | some rc =>
            by_cases hd : rc.done = true
            · simp [htl, hp, hd]
            · simp [htl, hp, hd, ih m _ rest h1 h2]
          | none => simp [htl, hp, ih m _ rest h1 h2]

/-- The inner `while let Some(pos) = buffer.find('\n')` loop: consume the
complete lines of `buffer`, returning the new accumulated text, the
leftover buffer and whether a `done: true` record was hit (the early
return). -/
def processBuffer (fullText : List Char) (buffer : List Char) :
    List Char × List Char × Bool :=
  processBufferGo buffer.length fullText buffer

/-- The decoder state across chunks: the accumulated text (`full_text`),
the line buffer (`buffer`), and whether the early return has fired. -/
structure DecState where
  fullText : List Char
  buffer : List Char
  finished : Bool
deriving DecidableEq, Repr

/-- Initial decoder state. -/
def initState : DecState := ⟨[], [], false⟩

/-- Handling of one arriving byte chunk: lossy-decode it, append to the
buffer and run the line loop.  A finished decoder ignores further chunks
(the Rust function has already returned). -/
def processChunk (st : DecState) (chunk : List Nat) : DecState :=
  if st.finished then st
  else
    let r := processBuffer st.fullText (st.buffer ++ utf8Lossy chunk)
    ⟨r.1, r.2.1, r.2.2⟩

/-- Decoder state after a list of chunks. -/
def runChunks (st : DecState) (chunks : List (List Nat)) : DecState :=
  chunks.foldl processChunk st

/-- `get_streamed_text` on a stream delivered as the given byte chunks:
the accumulated text it returns. -/
def get_streamed_text (chunks : List (List Nat)) : List Char :=
  (runChunks initState chunks).fullText

/-! ## Insight extraction (src/fetch.rs lines 205-209 and 240-271)

`extract_json_block` takes the span from the first `[` to the last `]`
inclusive.  The Rust slice `text[start..=end]` panics when
`start > end + 1`; the panic is modelled by `Except.error ()`.  The
parse-and-merge phase of `extract_insights` feeds the block to
`serde_json` and folds the parsed insights over the graph; any parse
failure leaves the graph untouched. -/

/-- Index of the first char satisfying `p` (Rust `str::find`). -/
def ffindIdx (l : List Char) (p : Char → Bool) : Option Nat :=
  match l with
  | [] => none
  | c :: rest => if p c then some 0 else (ffindIdx rest p).map (· + 1)

/-- Index of the last char satisfying `p` (Rust `str::rfind`). -/
def rfindIdx (l : List Char) (p : Char → Bool) : Option Nat :=
  match l with
  | [] => none
  | c :: rest =>
    match rfindIdx rest p with
    | some i => some (i + 1)
    | none => if p c then some 0 else none

/-- `extract_json_block` (src/fetch.rs lines 205-209).  `Except.error ()`
models the slice panic when the first `[` lies after the last `]` + 1;
`.ok none` models the `?`-returns when a bracket is missing. -/
def extract_json_block (text : List Char) : Except Unit (Option (List Char)) :=
  match ffindIdx text (fun c => c = lbrackChar), rfindIdx text (fun c => c = rbrackChar) with
  | some s, some e =>
    if s ≤ e + 1 then Except.ok (some ((text.drop s).take (e + 1 - s)))
    else Except.error ()
  | _, _ => Except.ok none

/-- The parse-and-merge phase of `extract_insights` (src/fetch.rs lines
240-271), applied to the raw decoded model output: on a located and
parsed insight array the insights are folded over the graph, otherwise
only a diagnostic is printed and the graph is returned unchanged;
`Except.error ()` propagates the slice panic. -/
def extract_insights_step (raw : List Char) (g : Knowledge) : Except Unit Knowledge :=
  match extract_json_block raw with
  | Except.error e => Except.error e
  | Except.ok blk =>
    match blk.bind parseInsightArray with
    | some insights => Except.ok (applyInsights g insights)
    | none => Except.ok g


/-! ## Basic lemmas about set insertion and the entry map -/

/-- Inserting an element already present is a no-op. -/
theorem insertStr_eq_of_mem {x : List Char} {s : List (List Char)} (h : x ∈ s) :
    insertStr x s = s := by simp [insertStr, h]

/-- The inserted element is a member afterwards. -/
theorem mem_insertStr_self (x : List Char) (s : List (List Char)) : x ∈ insertStr x s := by
  unfold insertStr
  split
  · assumption
  · simp

/-- Insertion preserves earlier members. -/
theorem mem_insertStr_of_mem {y : List Char} {s : List (List Char)} (x : List Char)
    (h : y ∈ s) : y ∈ insertStr x s := by
  unfold insertStr
  split
  · assumption
  · simp [h]

/-- Insertion keeps the old set inside the new one. -/
theorem subset_insertStr (x : List Char) (s : List (List Char)) : s ⊆ insertStr x s :=
  fun _ hy => mem_insertStr_of_mem x hy

/-- Inserting the same element twice equals inserting it once. -/
theorem insertStr_idem (x : List Char) (s : List (List Char)) :
    insertStr x (insertStr x s) = insertStr x s :=
  insertStr_eq_of_mem (mem_insertStr_self x s)

/-- Looking up the edited key after `updateEntry` sees the edited value
(of the previous value, or of the default if the key was absent). -/
theorem lookupEntry_updateEntry_self (l : List (List Char × Concept)) (k : List Char)
    (f : Concept → Concept) :
    lookupEntry (updateEntry l k f) k = some (f ((lookupEntry l k).getD defaultConcept)) := by
  induction l with
  | nil => simp [updateEntry, lookupEntry]
  | cons p rest ih =>
    obtain ⟨k0, c0⟩ := p
    by_cases hk : k0 = k
    · simp [updateEntry, lookupEntry, hk]
    · simp [updateEntry, lookupEntry, hk, ih]

/-- Looking up any other key after `updateEntry` is unchanged. -/
theorem lookupEntry_updateEntry_ne (l : List (List Char × Concept)) (k : List Char)
    (f : Concept → Concept) (k0 : List Char) (h : k0 ≠ k) :
    lookupEntry (updateEntry l k f) k0 = lookupEntry l k0 := by
  have hks : ¬ k = k0 := fun he => h he.symm
  induction l with
  | nil => simp [updateEntry, lookupEntry, hks]
  | cons p rest ih =>
    obtain ⟨k1, c1⟩ := p
    by_cases hk : k1 = k
    · subst hk
      simp [updateEntry, lookupEntry, hks]
    · by_cases hk0 : k1 = k0
      · subst hk0
        simp [updateEntry, lookupEntry, hk]
      · simp [updateEntry, lookupEntry, hk, hk0, ih]

/-- Editing a present key with a function that fixes its value is a no-op. -/
theorem updateEntry_fixed {l : List (List Char × Concept)} {k : List Char}
    {f : Concept → Concept} {v : Concept} (hl : lookupEntry l k = some v)
    (hf : f v = v) : updateEntry l k f = l := by
  induction l with
  | nil => simp [lookupEntry] at hl
  | cons p rest ih =>
    obtain ⟨k0, c0⟩ := p
    by_cases hk : k0 = k
    · simp [lookupEntry, hk] at hl
      simp [updateEntry, hk, hl, hf]
    · simp [lookupEntry, hk] at hl
      simp [updateEntry, hk, ih hl]

/-- Two edits of the same key fuse into their composition. -/
theorem updateEntry_comp (l : List (List Char × Concept)) (k : List Char)
    (f h : Concept → Concept) :
    updateEntry (updateEntry l k f) k h = updateEntry l k (fun c => h (f c)) := by
  induction l with
  | nil => simp [updateEntry]
  | cons p rest ih =>
    obtain ⟨k0, c0⟩ := p
    by_cases hk : k0 = k
    · simp [updateEntry, hk]
    · simp [updateEntry, hk, ih]

/-- `updateEntry` makes the edited key present. -/
theorem hasKey_updateEntry_self (l : List (List Char × Concept)) (k : List Char)
    (f : Concept → Concept) : (lookupEntry (updateEntry l k f) k).isSome = true := by
  simp [lookupEntry_updateEntry_self]

/-- `updateEntry` keeps every present key present. -/
theorem hasKey_updateEntry_mono {l : List (List Char × Concept)} {k0 : List Char}
    (k : List Char) (f : Concept → Concept) (h : (lookupEntry l k0).isSome = true) :
    (lookupEntry (updateEntry l k f) k0).isSome = true := by
  by_cases hk : k0 = k
  · subst hk; simp [lookupEntry_updateEntry_self]
  · rw [lookupEntry_updateEntry_ne _ _ _ _ hk]; exact h

/-! ## The value sitting at a key -/

/-- The `Concept` record stored at key `k`, or the default if absent.
Every mutation of the graph goes through `entry(k).or_default()`, so this
is exactly the value the Rust code edits. -/
def conceptAt (g : Knowledge) (k : List Char) : Concept :=
  (lookupEntry g.concepts k).getD defaultConcept

/-- Key presence. -/
def hasConcept (g : Knowledge) (k : List Char) : Bool :=
  (lookupEntry g.concepts k).isSome

/-- A present key's lookup is its `conceptAt` value. -/
theorem lookup_eq_conceptAt {g : Knowledge} {k : List Char}
    (h : hasConcept g k = true) : lookupEntry g.concepts k = some (conceptAt g k) := by
  unfold hasConcept at h
  unfold conceptAt
  cases hl : lookupEntry g.concepts k with
  | none => rw [hl] at h; simp at h
  | some v => simp

/-- `add_concept` changes no stored value, at any key. -/
theorem conceptAt_add_concept (g : Knowledge) (k k0 : List Char) :
    conceptAt (g.add_concept k) k0 = conceptAt g k0 := by
  by_cases h : k0 = k
  · subst h; simp [Knowledge.add_concept, conceptAt, lookupEntry_updateEntry_self]
  · simp [Knowledge.add_concept, conceptAt, lookupEntry_updateEntry_ne _ _ _ _ h]

/-! ## How each merge operation moves the stored fields -/

/-- `add_related_concept` at its own key sets the `related_concepts` field as described. -/
theorem relAt_add_related_concept_self (g : Knowledge) (k r : List Char) :
    (conceptAt (g.add_related_concept k r) k).related_concepts = insertStr r (conceptAt g k).related_concepts := by
  simp [Knowledge.add_related_concept, conceptAt, lookupEntry_updateEntry_self]

/-- `add_related_concept` leaves the `related_concepts` field of every other key unchanged. -/
theorem relAt_add_related_concept_ne (g : Knowledge) (k r k0 : List Char) (h : k0 ≠ k) :
    (conceptAt (g.add_related_concept k r) k0).related_concepts = (conceptAt g k0).related_concepts := by
  simp [Knowledge.add_related_concept, conceptAt, lookupEntry_updateEntry_ne _ _ _ _ h]

/-- `add_related_concept` never changes the `definition` field, at any key. -/
theorem defAt_add_related_concept (g : Knowledge) (k r k0 : List Char) :
    (conceptAt (g.add_related_concept k r) k0).definition = (conceptAt g k0).definition := by
  by_cases h : k0 = k
  · subst h; simp [Knowledge.add_related_concept, conceptAt, lookupEntry_updateEntry_self]
  · simp [Knowledge.add_related_concept, conceptAt, lookupEntry_updateEntry_ne _ _ _ _ h]

/-- `add_related_concept` never changes the `examples` field, at any key. -/
theorem exAt_add_related_concept (g : Knowledge) (k r k0 : List Char) :
    (conceptAt (g.add_related_concept k r) k0).examples = (conceptAt g k0).examples := by
  by_cases h : k0 = k
  · subst h; simp [Knowledge.add_related_concept, conceptAt, lookupEntry_updateEntry_self]
  · simp [Knowledge.add_related_concept, conceptAt, lookupEntry_updateEntry_ne _ _ _ _ h]

/-- `add_related_concept` never changes the `subtopics` field, at any key. -/
theorem subAt_add_related_concept (g : Knowledge) (k r k0 : List Char) :
    (conceptAt (g.add_related_concept k r) k0).subtopics = (conceptAt g k0).subtopics := by
  by_cases h : k0 = k
  · subst h; simp [Knowledge.add_related_concept, conceptAt, lookupEntry_updateEntry_self]
  · simp [Knowledge.add_related_concept, conceptAt, lookupEntry_updateEntry_ne _ _ _ _ h]

/-- `add_definition` at its own key sets the `definition` field as described. -/
theorem defAt_add_definition_self (g : Knowledge) (k d : List Char) :
    (conceptAt (g.add_definition k d) k).definition = some d := by
  simp [Knowledge.add_definition, conceptAt, lookupEntry_updateEntry_self]

/-- `add_definition` leaves the `definition` field of every other key unchanged. -/
theorem defAt_add_definition_ne (g : Knowledge) (k d k0 : List Char) (h : k0 ≠ k) :
    (conceptAt (g.add_definition k d) k0).definition = (conceptAt g k0).definition := by
  simp [Knowledge.add_definition, conceptAt, lookupEntry_updateEntry_ne _ _ _ _ h]

/-- `add_definition` never changes the `examples` field, at any key. -/
theorem exAt_add_definition (g : Knowledge) (k d k0 : List Char) :
    (conceptAt (g.add_definition k d) k0).examples = (conceptAt g k0).examples := by
  by_cases h : k0 = k
  · subst h; simp [Knowledge.add_definition, conceptAt, lookupEntry_updateEntry_self]
  · simp [Knowledge.add_definition, conceptAt, lookupEntry_updateEntry_ne _ _ _ _ h]

/-- `add_definition` never changes the `related_concepts` field, at any key. -/
theorem relAt_add_definition (g : Knowledge) (k d k0 : List Char) :
    (conceptAt (g.add_definition k d) k0).related_concepts = (conceptAt g k0).related_concepts := by
  by_cases h : k0 = k
  · subst h; simp [Knowledge.add_definition, conceptAt, lookupEntry_updateEntry_self]
  · simp [Knowledge.add_definition, conceptAt, lookupEntry_updateEntry_ne _ _ _ _ h]

/-- `add_definition` never changes the `subtopics` field, at any key. -/
theorem subAt_add_definition (g : Knowledge) (k d k0 : List Char) :
    (conceptAt (g.add_definition k d) k0).subtopics = (conceptAt g k0).subtopics := by
  by_cases h : k0 = k
  · subst h; simp [Knowledge.add_definition, conceptAt, lookupEntry_updateEntry_self]
  · simp [Knowledge.add_definition, conceptAt, lookupEntry_updateEntry_ne _ _ _ _ h]

/-- `add_example` at its own key sets the `examples` field as described. -/
theorem exAt_add_example_self (g : Knowledge) (k e : List Char) :
    (conceptAt (g.add_example k e) k).examples = insertStr e (conceptAt g k).examples := by
  simp [Knowledge.add_example, conceptAt, lookupEntry_updateEntry_self]

/-- `add_example` leaves the `examples` field of every other key unchanged. -/
theorem exAt_add_example_ne (g : Knowledge) (k e k0 : List Char) (h : k0 ≠ k) :
    (conceptAt (g.add_example k e) k0).examples = (conceptAt g k0).examples := by
  simp [Knowledge.add_example, conceptAt, lookupEntry_updateEntry_ne _ _ _ _ h]

/-- `add_example` never changes the `definition` field, at any key. -/
theorem defAt_add_example (g : Knowledge) (k e k0 : List Char) :
    (conceptAt (g.add_example k e) k0).definition = (conceptAt g k0).definition := by
  by_cases h : k0 = k
  · subst h; simp [Knowledge.add_example, conceptAt, lookupEntry_updateEntry_self]
  · simp [Knowledge.add_example, conceptAt, lookupEntry_updateEntry_ne _ _ _ _ h]

/-- `add_example` never changes the `related_concepts` field, at any key. -/
theorem relAt_add_example (g : Knowledge) (k e k0 : List Char) :
    (conceptAt (g.add_example k e) k0).related_concepts = (conceptAt g k0).related_concepts := by
  by_cases h : k0 = k
  · subst h; simp [Knowledge.add_example, conceptAt, lookupEntry_updateEntry_self]
  · simp [Knowledge.add_example, conceptAt, lookupEntry_updateEntry_ne _ _ _ _ h]

/-- `add_example` never changes the `subtopics` field, at any key. -/
theorem subAt_add_example (g : Knowledge) (k e k0 : List Char) :
    (conceptAt (g.add_example k e) k0).subtopics = (conceptAt g k0).subtopics := by
  by_cases h : k0 = k
  · subst h; simp [Knowledge.add_example, conceptAt, lookupEntry_updateEntry_self]
  · simp [Knowledge.add_example, conceptAt, lookupEntry_updateEntry_ne _ _ _ _ h]

/-- `add_subtopic` at its own key sets the `subtopics` field as described. -/
theorem subAt_add_subtopic_self (g : Knowledge) (k s : List Char) :
    (conceptAt (g.add_subtopic k s) k).subtopics = insertStr s (conceptAt g k).subtopics := by
  simp [Knowledge.add_subtopic, conceptAt, lookupEntry_updateEntry_self]

/-- `add_subtopic` leaves the `subtopics` field of every other key unchanged. -/
theorem subAt_add_subtopic_ne (g : Knowledge) (k s k0 : List Char) (h : k0 ≠ k) :
    (conceptAt (g.add_subtopic k s) k0).subtopics = (conceptAt g k0).subtopics := by
  simp [Knowledge.add_subtopic, conceptAt, lookupEntry_updateEntry_ne _ _ _ _ h]

/-- `add_subtopic` never changes the `definition` field, at any key. -/
theorem defAt_add_subtopic (g : Knowledge) (k s k0 : List Char) :
    (conceptAt (g.add_subtopic k s) k0).definition = (conceptAt g k0).definition := by
  by_cases h : k0 = k
  · subst h; simp [Knowledge.add_subtopic, conceptAt, lookupEntry_updateEntry_self]
  · simp [Knowledge.add_subtopic, conceptAt, lookupEntry_updateEntry_ne _ _ _ _ h]

/-- `add_subtopic` never changes the `examples` field, at any key. -/
theorem exAt_add_subtopic (g : Knowledge) (k s k0 : List Char) :
    (conceptAt (g.add_subtopic k s) k0).examples = (conceptAt g k0).examples := by
  by_cases h : k0 = k
  · subst h; simp [Knowledge.add_subtopic, conceptAt, lookupEntry_updateEntry_self]
  · simp [Knowledge.add_subtopic, conceptAt, lookupEntry_updateEntry_ne _ _ _ _ h]

/-- `add_subtopic` never changes the `related_concepts` field, at any key. -/
theorem relAt_add_subtopic (g : Knowledge) (k s k0 : List Char) :
    (conceptAt (g.add_subtopic k s) k0).related_concepts = (conceptAt g k0).related_concepts := by
  by_cases h : k0 = k
  · subst h; simp [Knowledge.add_subtopic, conceptAt, lookupEntry_updateEntry_self]
  · simp [Knowledge.add_subtopic, conceptAt, lookupEntry_updateEntry_ne _ _ _ _ h]

/-! ## Absorption: a graph that already contains an insight is a fixpoint -/

/-- `absorbs g i`: every fact carried by insight `i` is already recorded in
graph `g` (the concept entry exists and holds the topic edge, definition and
example; a non-empty subtopic is already attached to `"General"`). -/
def absorbs (g : Knowledge) (i : StructuredInsight) : Prop :=
  (∀ c0, i.concept = some c0 →
    hasConcept g c0 = true ∧
    (∀ t0, i.topic = some t0 → t0 ∈ (conceptAt g c0).related_concepts) ∧
    (∀ d0, i.definition = some d0 → (conceptAt g c0).definition = some d0) ∧
    (∀ e0, i.«example» = some e0 → e0 ∈ (conceptAt g c0).examples)) ∧
  (∀ s0, i.subtopic = some s0 → s0 ≠ [] →
    hasConcept g generalName = true ∧ s0 ∈ (conceptAt g generalName).subtopics)

/-- `add_concept` on a present key changes nothing. -/
theorem add_concept_absorbed {g : Knowledge} {k : List Char}
    (hk : hasConcept g k = true) : g.add_concept k = g := by
  unfold Knowledge.add_concept
  rw [updateEntry_fixed (lookup_eq_conceptAt hk) rfl]

/-- `add_related_concept` with an already-recorded edge changes nothing. -/
theorem add_related_absorbed {g : Knowledge} {k r : List Char}
    (hk : hasConcept g k = true) (hr : r ∈ (conceptAt g k).related_concepts) :
    g.add_related_concept k r = g := by
  unfold Knowledge.add_related_concept
  rw [updateEntry_fixed (lookup_eq_conceptAt hk) (by rw [insertStr_eq_of_mem hr])]

/-- `add_definition` re-writing the stored definition changes nothing. -/
theorem add_definition_absorbed {g : Knowledge} {k d : List Char}
    (hk : hasConcept g k = true) (hd : (conceptAt g k).definition = some d) :
    g.add_definition k d = g := by
  unfold Knowledge.add_definition
  rw [updateEntry_fixed (lookup_eq_conceptAt hk) (by rw [← hd])]

/-- `add_example` with an already-recorded example changes nothing. -/
theorem add_example_absorbed {g : Knowledge} {k e : List Char}
    (hk : hasConcept g k = true) (he : e ∈ (conceptAt g k).examples) :
    g.add_example k e = g := by
  unfold Knowledge.add_example
  rw [updateEntry_fixed (lookup_eq_conceptAt hk) (by rw [insertStr_eq_of_mem he])]

/-- `add_subtopic` with an already-recorded subtopic changes nothing. -/
theorem add_subtopic_absorbed {g : Knowledge} {k s : List Char}
    (hk : hasConcept g k = true) (hs : s ∈ (conceptAt g k).subtopics) :
    g.add_subtopic k s = g := by
  unfold Knowledge.add_subtopic
  rw [updateEntry_fixed (lookup_eq_conceptAt hk) (by rw [insertStr_eq_of_mem hs])]

/-- Applying an absorbed insight is a no-op. -/
theorem applyInsight_absorbed (g : Knowledge) (i : StructuredInsight)
    (h : absorbs g i) : applyInsight g i = g := by
  obtain ⟨H1, H2⟩ := h
  obtain ⟨t, c, d, e, s⟩ := i
  cases c with
  | none =>
    cases s with
    | none => rfl
    | some s0 =>
      by_cases hse : s0 = []
      · simp [applyInsight, hse]
      · obtain ⟨hg, hsub⟩ := H2 s0 rfl hse
        simp only [applyInsight]
        rw [if_neg hse]
        exact add_subtopic_absorbed hg hsub
  | some c0 =>
    obtain ⟨hk, hrt, hrd, hre⟩ := H1 c0 rfl
    cases t with
    | none =>
      cases d with
      | none =>
        cases e with
        | none =>
          cases s with
          | none =>
            simp only [applyInsight]
            rw [add_concept_absorbed hk]
          | some s0 =>
            by_cases hse : s0 = []
            · simp only [applyInsight]
              rw [if_pos hse, add_concept_absorbed hk]
            · obtain ⟨hg, hsub⟩ := H2 s0 rfl hse
              simp only [applyInsight]
              rw [if_neg hse, add_concept_absorbed hk]
              exact add_subtopic_absorbed hg hsub
        | some e0 =>
          cases s with
          | none =>
            simp only [applyInsight]
            rw [add_concept_absorbed hk]
            exact add_example_absorbed hk (hre e0 rfl)
          | some s0 =>
            by_cases hse : s0 = []
            · simp only [applyInsight]
              rw [if_pos hse, add_concept_absorbed hk]
              exact add_example_absorbed hk (hre e0 rfl)
            · obtain ⟨hg, hsub⟩ := H2 s0 rfl hse
              simp only [applyInsight]
              rw [if_neg hse, add_concept_absorbed hk,
                add_example_absorbed hk (hre e0 rfl)]
              exact add_subtopic_absorbed hg hsub
      | some d0 =>
        cases e with
        | none =>
          cases s with
          | none =>
            simp only [applyInsight]
            rw [add_concept_absorbed hk]
            exact add_definition_absorbed hk (hrd d0 rfl)
          | some s0 =>
            by_cases hse : s0 = []
            · simp only [applyInsight]
              rw [if_pos hse, add_concept_absorbed hk]
              exact add_definition_absorbed hk (hrd d0 rfl)
            · obtain ⟨hg, hsub⟩ := H2 s0 rfl hse
              simp only [applyInsight]
              rw [if_neg hse, add_concept_absorbed hk,
                add_definition_absorbed hk (hrd d0 rfl)]
              exact add_subtopic_absorbed hg hsub
        | some e0 =>
          cases s with
          | none =>
            simp only [applyInsight]
            rw [add_concept_absorbed hk, add_definition_absorbed hk (hrd d0 rfl)]
            exact add_example_absorbed hk (hre e0 rfl)
          | some s0 =>
            by_cases hse : s0 = []
            · simp only [applyInsight]
              rw [if_pos hse, add_concept_absorbed hk,
                add_definition_absorbed hk (hrd d0 rfl)]
              exact add_example_absorbed hk (hre e0 rfl)
            · obtain ⟨hg, hsub⟩ := H2 s0 rfl hse
              simp only [applyInsight]
              rw [if_neg hse, add_concept_absorbed hk,
                add_definition_absorbed hk (hrd d0 rfl),
                add_example_absorbed hk (hre e0 rfl)]
              exact add_subtopic_absorbed hg hsub
    | some t0 =>
      cases d with
      | none =>
        cases e with
        | none =>
          cases s with
          | none =>
            simp only [applyInsight]
            rw [add_concept_absorbed hk]
            exact add_related_absorbed hk (hrt t0 rfl)
          | some s0 =>
            by_cases hse : s0 = []
            · simp only [applyInsight]
              rw [if_pos hse, add_concept_absorbed hk]
              exact add_related_absorbed hk (hrt t0 rfl)
            · obtain ⟨hg, hsub⟩ := H2 s0 rfl hse
              simp only [applyInsight]
              rw [if_neg hse, add_concept_absorbed hk,
                add_related_absorbed hk (hrt t0 rfl)]
              exact add_subtopic_absorbed hg hsub
        | some e0 =>
          cases s with
          | none =>
            simp only [applyInsight]
            rw [add_concept_absorbed hk, add_related_absorbed hk (hrt t0 rfl)]
            exact add_example_absorbed hk (hre e0 rfl)
          | some s0 =>
            by_cases hse : s0 = []
            · simp only [applyInsight]
              rw [if_pos hse, add_concept_absorbed hk,
                add_related_absorbed hk (hrt t0 rfl)]
              exact add_example_absorbed hk (hre e0 rfl)
            · obtain ⟨hg, hsub⟩ := H2 s0 rfl hse
              simp only [applyInsight]
              rw [if_neg hse, add_concept_absorbed hk,
                add_related_absorbed hk (hrt t0 rfl),
                add_example_absorbed hk (hre e0 rfl)]
              exact add_subtopic_absorbed hg hsub
      | some d0 =>
        cases e with
        | none =>
          cases s with
          | none =>
            simp only [applyInsight]
            rw [add_concept_absorbed hk, add_related_absorbed hk (hrt t0 rfl)]
            exact add_definition_absorbed hk (hrd d0 rfl)
          | some s0 =>
            by_cases hse : s0 = []
            · simp only [applyInsight]
              rw [if_pos hse, add_concept_absorbed hk,
                add_related_absorbed hk (hrt t0 rfl)]
              exact add_definition_absorbed hk (hrd d0 rfl)
            · obtain ⟨hg, hsub⟩ := H2 s0 rfl hse
              simp only [applyInsight]
              rw [if_neg hse, add_concept_absorbed hk,
                add_related_absorbed hk (hrt t0 rfl),
                add_definition_absorbed hk (hrd d0 rfl)]
              exact add_subtopic_absorbed hg hsub
        | some e0 =>
          cases s with
          | none =>
            simp only [applyInsight]
            rw [add_concept_absorbed hk, add_related_absorbed hk (hrt t0 rfl),
              add_definition_absorbed hk (hrd d0 rfl)]
            exact add_example_absorbed hk (hre e0 rfl)
          | some s0 =>
            by_cases hse : s0 = []
            · simp only [applyInsight]
              rw [if_pos hse, add_concept_absorbed hk,
                add_related_absorbed hk (hrt t0 rfl),
                add_definition_absorbed hk (hrd d0 rfl)]
              exact add_example_absorbed hk (hre e0 rfl)
            · obtain ⟨hg, hsub⟩ := H2 s0 rfl hse
              simp only [applyInsight]
              rw [if_neg hse, add_concept_absorbed hk,
                add_related_absorbed hk (hrt t0 rfl),
                add_definition_absorbed hk (hrd d0 rfl),
                add_example_absorbed hk (hre e0 rfl)]
              exact add_subtopic_absorbed hg hsub

/-- After applying an insight that names a concept, that concept is present. -/
theorem hasConcept_applyInsight {g : Knowledge} {i : StructuredInsight} {c0 : List Char}
    (hc : i.concept = some c0) : hasConcept (applyInsight g i) c0 = true := by
  obtain ⟨t, c, d, e, s⟩ := i
  replace hc : c = some c0 := hc
  subst hc
  cases t <;> cases d <;> cases e <;> cases s <;>
    simp only [applyInsight] <;>
    (try split) <;>
    simp only [hasConcept, Knowledge.add_concept, Knowledge.add_related_concept,
      Knowledge.add_definition, Knowledge.add_example, Knowledge.add_subtopic] <;>
    (repeat (first
      | exact hasKey_updateEntry_self _ _ _
      | apply hasKey_updateEntry_mono))

/-- After applying an insight with a concept and a topic, the topic edge is
recorded on the concept. -/
theorem relAt_applyInsight {g : Knowledge} {i : StructuredInsight} {c0 t0 : List Char}
    (hc : i.concept = some c0) (ht : i.topic = some t0) :
    t0 ∈ (conceptAt (applyInsight g i) c0).related_concepts := by
  obtain ⟨t, c, d, e, s⟩ := i
  replace hc : c = some c0 := hc
  replace ht : t = some t0 := ht
  subst hc
  subst ht
  cases d <;> cases e <;> cases s <;>
    simp only [applyInsight] <;>
    (try split) <;>
    simp [relAt_add_subtopic, relAt_add_example, relAt_add_definition,
      relAt_add_related_concept_self, mem_insertStr_self]

/-- After applying an insight with a concept and a definition, the stored
definition is the insight's. -/
theorem defAt_applyInsight {g : Knowledge} {i : StructuredInsight} {c0 d0 : List Char}
    (hc : i.concept = some c0) (hd : i.definition = some d0) :
    (conceptAt (applyInsight g i) c0).definition = some d0 := by
  obtain ⟨t, c, d, e, s⟩ := i
  replace hc : c = some c0 := hc
  replace hd : d = some d0 := hd
  subst hc
  subst hd
  cases t <;> cases e <;> cases s <;>
    simp only [applyInsight] <;>
    (try split) <;>
    simp [defAt_add_subtopic, defAt_add_example, defAt_add_definition_self]

/-- After applying an insight with a concept and an example, the example is
recorded on the concept. -/
theorem exAt_applyInsight {g : Knowledge} {i : StructuredInsight} {c0 e0 : List Char}
    (hc : i.concept = some c0) (he : i.«example» = some e0) :
    e0 ∈ (conceptAt (applyInsight g i) c0).examples := by
  obtain ⟨t, c, d, e, s⟩ := i
  replace hc : c = some c0 := hc
  replace he : e = some e0 := he
  subst hc
  subst he
  cases t <;> cases d <;> cases s <;>
    simp only [applyInsight] <;>
    (try split) <;>
    simp [exAt_add_subtopic, exAt_add_example_self, mem_insertStr_self]

/-- After applying an insight with a non-empty subtopic, the subtopic is
attached to `"General"`. -/
theorem sub_applyInsight {g : Knowledge} {i : StructuredInsight} {s0 : List Char}
    (hs : i.subtopic = some s0) (hne : s0 ≠ []) :
    hasConcept (applyInsight g i) generalName = true ∧
      s0 ∈ (conceptAt (applyInsight g i) generalName).subtopics := by
  obtain ⟨t, c, d, e, s⟩ := i
  replace hs : s = some s0 := hs
  subst hs
  cases t <;> cases d <;> cases e <;> cases c <;>
    simp only [applyInsight] <;>
    rw [if_neg hne] <;>
    refine ⟨?_, ?_⟩ <;>
    first
      | (simp [subAt_add_subtopic_self, mem_insertStr_self]
         done)
      | (simp only [hasConcept, Knowledge.add_concept, Knowledge.add_related_concept,
          Knowledge.add_definition, Knowledge.add_example, Knowledge.add_subtopic]
         repeat (first
           | exact hasKey_updateEntry_self _ _ _
           | apply hasKey_updateEntry_mono))

/-- A graph that has just absorbed an insight absorbs it. -/
theorem applyInsight_absorbs (g : Knowledge) (i : StructuredInsight) :
    absorbs (applyInsight g i) i := by
  constructor
  · intro c0 hc
    exact ⟨hasConcept_applyInsight hc,
      fun t0 ht => relAt_applyInsight hc ht,
      fun d0 hd => defAt_applyInsight hc hd,
      fun e0 he => exAt_applyInsight hc he⟩
  · intro s0 hs hne
    exact sub_applyInsight hs hne

/-! ## Merge-operation sequences and graph growth -/

/-- The five primitive merge operations the program ever performs on the
graph (the `Knowledge` methods of src/fetch.rs lines 42-66). -/
inductive MergeOp where
  | addConcept (c : List Char)
  | addRelated (c r : List Char)
  | addDefinition (c d : List Char)
  | addExample (c e : List Char)
  | addSubtopic (c s : List Char)

/-- Apply one merge operation. -/
def applyMergeOp (g : Knowledge) : MergeOp → Knowledge
  | MergeOp.addConcept c => g.add_concept c
  | MergeOp.addRelated c r => g.add_related_concept c r
  | MergeOp.addDefinition c d => g.add_definition c d
  | MergeOp.addExample c e => g.add_example c e
  | MergeOp.addSubtopic c s => g.add_subtopic c s

/-- Apply a sequence of merge operations, in order. -/
def applyMergeOps (g : Knowledge) (ops : List MergeOp) : Knowledge :=
  ops.foldl applyMergeOp g

/-- Graph growth order: every entry of `g1` is still present in `g2` and
its three set-valued fields have not shrunk.  (The definition field may
change, matching last-write-wins overwrites.) -/
def Knowledge.below (g1 g2 : Knowledge) : Prop :=
  ∀ k v, lookupEntry g1.concepts k = some v →
    ∃ w, lookupEntry g2.concepts k = some w ∧
      v.examples ⊆ w.examples ∧ v.related_concepts ⊆ w.related_concepts ∧
      v.subtopics ⊆ w.subtopics

/-- Growth is reflexive. -/
theorem Knowledge.below_refl (g : Knowledge) : g.below g :=
  fun _ v hv => ⟨v, hv, List.Subset.refl _, List.Subset.refl _, List.Subset.refl _⟩

/-- Growth is transitive. -/
theorem Knowledge.below_trans {g1 g2 g3 : Knowledge} (h12 : g1.below g2)
    (h23 : g2.below g3) : g1.below g3 := by
  intro k v hv
  obtain ⟨w, hw, he, hr, hs⟩ := h12 k v hv
  obtain ⟨u, hu, he2, hr2, hs2⟩ := h23 k w hw
  exact ⟨u, hu, he.trans he2, hr.trans hr2, hs.trans hs2⟩

/-- Any `updateEntry` whose edit only grows the set fields grows the graph. -/
theorem updateEntry_below (l : List (List Char × Concept)) (k : List Char)
    (f : Concept → Concept)
    (hf : ∀ v, v.examples ⊆ (f v).examples ∧
      v.related_concepts ⊆ (f v).related_concepts ∧ v.subtopics ⊆ (f v).subtopics) :
    Knowledge.below ⟨l⟩ ⟨updateEntry l k f⟩ := by
  intro k0 v hv
  by_cases hk : k0 = k
  · subst hk
    refine ⟨f v, ?_, (hf v).1, (hf v).2.1, (hf v).2.2⟩
    simp only [lookupEntry_updateEntry_self]
    simp [hv]
  · refine ⟨v, ?_, List.Subset.refl _, List.Subset.refl _, List.Subset.refl _⟩
    rw [lookupEntry_updateEntry_ne _ _ _ _ hk]
    exact hv

/-- Each single merge operation grows the graph. -/
theorem applyMergeOp_below (g : Knowledge) (op : MergeOp) :
    g.below (applyMergeOp g op) := by
  cases op with
  | addConcept c =>
    have h := updateEntry_below g.concepts c id
      (fun v => ⟨List.Subset.refl _, List.Subset.refl _, List.Subset.refl _⟩)
    exact h
  | addRelated c r =>
    exact updateEntry_below g.concepts c _
      (fun v => ⟨List.Subset.refl _, subset_insertStr _ _, List.Subset.refl _⟩)
  | addDefinition c d =>
    exact updateEntry_below g.concepts c _
      (fun v => ⟨List.Subset.refl _, List.Subset.refl _, List.Subset.refl _⟩)
  | addExample c e =>
    exact updateEntry_below g.concepts c _
      (fun v => ⟨subset_insertStr _ _, List.Subset.refl _, List.Subset.refl _⟩)
  | addSubtopic c s =>
    exact updateEntry_below g.concepts c _
      (fun v => ⟨List.Subset.refl _, List.Subset.refl _, subset_insertStr _ _⟩)

/-! ## Definition writes: last write wins -/

/-- Left-biased choice on optional values. -/
def optOr (a b : Option (List Char)) : Option (List Char) :=
  match a with
  | some x => some x
  | none => b

/-- `optOr` is associative. -/
theorem optOr_assoc (a b c : Option (List Char)) :
    optOr a (optOr b c) = optOr (optOr a b) c := by
  cases a <;> simp [optOr]

/-- The definition stored for `c` in the graph (`None` when the entry or
its definition is absent). -/
def defOf (g : Knowledge) (c : List Char) : Option (List Char) :=
  (conceptAt g c).definition

/-- The definition value an insight writes to concept `c` (the merge loop
writes a definition only when the insight also names the concept). -/
def writeOf (i : StructuredInsight) (c : List Char) : Option (List Char) :=
  match i.concept, i.definition with
  | some c1, some d0 => if c1 = c then some d0 else none
  | _, _ => none

/-- The last definition value written to `c` by a batch of insights. -/
def lastDefWrite (c : List Char) : List StructuredInsight → Option (List Char)
  | [] => none
  | i :: l => optOr (lastDefWrite c l) (writeOf i c)

/-- One insight changes the stored definition of `c` exactly to its own
write (if any), keeping the old value otherwise. -/
theorem defOf_applyInsight (g : Knowledge) (i : StructuredInsight) (c : List Char) :
    defOf (applyInsight g i) c = optOr (writeOf i c) (defOf g c) := by
  obtain ⟨t, cc, d, e, s⟩ := i
  cases cc with
  | none =>
    cases s with
    | none => simp [applyInsight, writeOf, optOr]
    | some s0 =>
      by_cases hse : s0 = []
      · simp [applyInsight, hse, writeOf, optOr]
      · simp only [applyInsight, writeOf, optOr]
        rw [if_neg hse]
        cases d <;> simp [defOf, defAt_add_subtopic]
  | some c1 =>
    by_cases hc : c1 = c
    · subst hc
      cases d with
      | some d0 =>
        have h := defAt_applyInsight
          (g := g) (i := ⟨t, some c1, some d0, e, s⟩) (rfl) (rfl)
        simp [writeOf, optOr, defOf, h]
      | none =>
        simp only [writeOf, optOr]
        cases t <;> cases e <;> cases s <;>
          simp only [applyInsight] <;>
          (try split) <;>
          simp [defOf, defAt_add_subtopic, defAt_add_example,
            defAt_add_related_concept, conceptAt_add_concept]
    · have hc2 : c ≠ c1 := fun he => hc he.symm
      cases d <;>
        (simp only [writeOf, optOr]
         try rw [if_neg hc]) <;>
        cases t <;> cases e <;> cases s <;>
          simp only [applyInsight] <;>
          (try split) <;>
          simp [defOf, defAt_add_subtopic, defAt_add_example,
            defAt_add_related_concept, conceptAt_add_concept,
            defAt_add_definition_ne _ _ _ _ hc2]

/-! ## Concrete names used by tests and witnesses -/

/-- The name `"Gravity"`. -/
def gravityName : List Char := ("Gravity").toList

/-- The name `"Physics"`. -/
def physicsName : List Char := ("Physics").toList

/-- The text `"A force"`. -/
def aForceDef : List Char := ("A force").toList

/-- The text `"Apples fall"`. -/
def applesFallEx : List Char := ("Apples fall").toList

/-- The name `"Thermodynamics"`. -/
def thermoName : List Char := ("Thermodynamics").toList

/-! ## Claim theorems on the knowledge graph -/

/-- Claim C3: for every `StructuredInsight` record and every knowledge
graph, applying the record's merge (add concept, add topic as related
concept, set definition, add example, add subtopic) twice in succession
yields a graph equal to applying it once. -/
theorem applyInsight_idem (g : Knowledge) (i : StructuredInsight) :
    applyInsight (applyInsight g i) i = applyInsight g i :=
  applyInsight_absorbed _ _ (applyInsight_absorbs g i)

/-- Claim C4 (corrected), counterexample: the claim says the stored
definition is the last NON-EMPTY definition written, so an empty-string
definition should not replace `"A force"`; in the code `add_definition`
overwrites unconditionally, so after writing `"A force"` and then `""`
the stored definition is `""`, not `"A force"`. -/
theorem empty_definition_replaces_nonempty :
    defOf (applyInsights ⟨[]⟩
        [⟨none, some gravityName, some aForceDef, none, none⟩,
         ⟨none, some gravityName, some [], none, none⟩]) gravityName = some [] ∧
    aForceDef ≠ [] ∧
    defOf (applyInsights ⟨[]⟩
        [⟨none, some gravityName, some aForceDef, none, none⟩,
         ⟨none, some gravityName, some [], none, none⟩]) gravityName ≠ some aForceDef := by
  refine ⟨by decide, by decide, by decide⟩

/-- Claim C4 (amended): for every concept, the definition stored in the
graph after a sequence of insight merges is the last definition value
written for that concept (empty or not); if no definition was written the
prior stored value remains. -/
theorem definition_last_write_wins (g : Knowledge) (l : List StructuredInsight)
    (c : List Char) :
    defOf (applyInsights g l) c = optOr (lastDefWrite c l) (defOf g c) := by
  induction l generalizing g with
  | nil => simp [applyInsights, lastDefWrite, optOr]
  | cons i rest ih =>
    have h1 : applyInsights g (i :: rest) = applyInsights (applyInsight g i) rest := rfl
    rw [h1, ih, defOf_applyInsight, lastDefWrite, optOr_assoc]

/-- Claim C7: for every sequence of merge operations, the graph only
grows: every key present before is still present after, with its
examples, related-concepts and subtopics sets supersets of their earlier
values. -/
theorem applyMergeOps_below (g : Knowledge) (ops : List MergeOp) :
    g.below (applyMergeOps g ops) := by
  induction ops generalizing g with
  | nil => exact Knowledge.below_refl g
  | cons op rest ih =>
    exact Knowledge.below_trans (applyMergeOp_below g op) (ih (applyMergeOp g op))

/-- Claim C8: adding a related-concept edge naming `x` to a (distinct)
concept `c` does not create or change the entry keyed `x`, leaves every
entry other than `c` unchanged, records `x` in `c`'s related-concept set,
and an entry for `x` is created once a later insight names `x` in its
`concept` field. -/
theorem add_related_concept_frame (g : Knowledge) (c x : List Char) (hne : x ≠ c) :
    lookupEntry (g.add_related_concept c x).concepts x = lookupEntry g.concepts x ∧
    (∀ d, d ≠ c →
      lookupEntry (g.add_related_concept c x).concepts d = lookupEntry g.concepts d) ∧
    x ∈ (conceptAt (g.add_related_concept c x) c).related_concepts ∧
    (∀ i : StructuredInsight, i.concept = some x →
      hasConcept (applyInsight (g.add_related_concept c x) i) x = true) := by
  refine ⟨?_, ?_, ?_, ?_⟩
  · simp only [Knowledge.add_related_concept]
    exact lookupEntry_updateEntry_ne _ _ _ _ hne
  · intro d hd
    simp only [Knowledge.add_related_concept]
    exact lookupEntry_updateEntry_ne _ _ _ _ hd
  · rw [relAt_add_related_concept_self]
    exact mem_insertStr_self _ _
  · intro i hci
    exact hasConcept_applyInsight hci

/-- Witness for C8 at a concrete input: an edge `Physics → Thermodynamics`
on the empty graph leaves `Thermodynamics` absent yet recorded as a
related concept, and a later insight naming it creates its entry. -/
theorem add_related_concept_frame_witness :
    thermoName ≠ physicsName ∧
    (lookupEntry ((Knowledge.mk []).add_related_concept physicsName thermoName).concepts
        thermoName =
      lookupEntry (Knowledge.mk []).concepts thermoName ∧
    (∀ d, d ≠ physicsName →
      lookupEntry ((Knowledge.mk []).add_related_concept physicsName thermoName).concepts d =
        lookupEntry (Knowledge.mk []).concepts d) ∧
    thermoName ∈
      (conceptAt ((Knowledge.mk []).add_related_concept physicsName thermoName)
        physicsName).related_concepts ∧
    (∀ i : StructuredInsight, i.concept = some thermoName →
      hasConcept (applyInsight ((Knowledge.mk []).add_related_concept physicsName thermoName) i)
        thermoName = true)) :=
  ⟨by decide, add_related_concept_frame ⟨[]⟩ physicsName thermoName (by decide)⟩

/-- Claim C10: an insight without a `concept` field ignores the `topic`,
`definition` and `example` fields entirely; a present non-empty subtopic
is still added to `"General"`; with no (or an empty) subtopic the graph
is unchanged. -/
theorem applyInsight_no_concept (g : Knowledge) (i : StructuredInsight)
    (h : i.concept = none) :
    (i.subtopic = none → applyInsight g i = g) ∧
    (i.subtopic = some [] → applyInsight g i = g) ∧
    (∀ s0, i.subtopic = some s0 → s0 ≠ [] →
      applyInsight g i = g.add_subtopic generalName s0) := by
  obtain ⟨t, c, d, e, s⟩ := i
  replace h : c = none := h
  subst h
  refine ⟨?_, ?_, ?_⟩
  · intro hs
    replace hs : s = none := hs
    subst hs
    rfl
  · intro hs
    replace hs : s = some [] := hs
    subst hs
    simp [applyInsight]
  · intro s0 hs hne
    replace hs : s = some s0 := hs
    subst hs
    simp only [applyInsight]
    rw [if_neg hne]

/-- Witness for C10 at a concrete input: a concept-less insight carrying a
topic, a definition, an example and a non-empty subtopic only adds the
subtopic to `"General"`. -/
theorem applyInsight_no_concept_witness :
    applyInsight ⟨[]⟩ ⟨some physicsName, none, some aForceDef, some applesFallEx,
        some thermoName⟩ =
      (Knowledge.mk []).add_subtopic generalName thermoName :=
  (applyInsight_no_concept ⟨[]⟩
      ⟨some physicsName, none, some aForceDef, some applesFallEx, some thermoName⟩
      rfl).2.2 thermoName rfl (by decide)

/-! ## Decoder lemmas -/

/-- A buffer without a newline does not split. -/
theorem splitAtNewline_of_not_mem : ∀ {l : List Char}, lfChar ∉ l → splitAtNewline l = none := by
  intro l
  induction l with
  | nil => intro _; rfl
  | cons c cs ih =>
    intro h
    have hc : ¬ c = lfChar := fun he => h (by rw [he]; exact List.mem_cons_self _ _)
    have hcs : lfChar ∉ cs := fun hm => h (List.mem_cons_of_mem _ hm)
    simp [splitAtNewline, hc, ih hcs]

/-- A buffer with no splits has no newline. -/
theorem not_mem_of_splitAtNewline_none : ∀ {l : List Char},
    splitAtNewline l = none → lfChar ∉ l := by
  intro l
  induction l with
  | nil => intro _ h; simp at h
  | cons c cs ih =>
    intro h
    by_cases hc : c = lfChar
    · simp [splitAtNewline, hc] at h
    · simp only [splitAtNewline, if_neg hc] at h
      cases hsp : splitAtNewline cs with
      | none =>
        intro hm
        rcases List.mem_cons.mp hm with he | hm2
        · exact hc he.symm
        · exact ih hsp hm2
      | some p => rw [hsp] at h; simp at h

/-- Splitting a newline-free line glued to `'\n' :: rest` recovers the
line and the rest. -/
theorem splitAtNewline_append_lf {line : List Char} (rest : List Char)
    (h : lfChar ∉ line) :
    splitAtNewline (line ++ lfChar :: rest) = some (line, rest) := by
  induction line with
  | nil => simp [splitAtNewline]
  | cons c cs ih =>
    have hc : ¬ c = lfChar := fun he => h (by rw [he]; exact List.mem_cons_self _ _)
    have hcs : lfChar ∉ cs := fun hm => h (List.mem_cons_of_mem _ hm)
    simp [splitAtNewline, hc, ih hcs]

/-- The line loop on a newline-free buffer does nothing. -/
theorem processBuffer_no_newline (ft b : List Char) (h : lfChar ∉ b) :
    processBuffer ft b = (ft, b, false) := by
  have hsp := splitAtNewline_of_not_mem h
  unfold processBuffer
  cases hn : b.length with
  | zero => rfl
  | succ n => simp only [processBufferGo, hsp]

/-- One unfolding of the line loop when the buffer holds a newline. -/
theorem processBuffer_step (ft b line rest : List Char)
    (hsp : splitAtNewline b = some (line, rest)) :
    processBuffer ft b =
      (if trimList line = [] then processBuffer ft rest
       else
        match parseResponseChunk (trimList line) with
        | some rc =>
          if rc.done then (ft ++ rc.response, rest, true)
          else processBuffer (ft ++ rc.response) rest
        | none => processBuffer ft rest) := by
  obtain ⟨k, hk⟩ : ∃ k, b.length = k + 1 :=
    ⟨b.length - 1, by have := splitAtNewline_len hsp; omega⟩
  have hfuel : rest.length ≤ k := by have := splitAtNewline_len hsp; omega
  unfold processBuffer
  rw [hk]
  simp only [processBufferGo, hsp]
  by_cases htl : trimList line = []
  · simp [htl, processBufferGo_fuel k rest.length ft rest hfuel (Nat.le_refl _)]
  · cases hp : parseResponseChunk (trimList line) with
    | some rc =>
      by_cases hd : rc.done = true
      · simp [htl, hp, hd]
      · simp [htl, hp, hd,
          processBufferGo_fuel k rest.length (ft ++ rc.response) rest hfuel (Nat.le_refl _)]
    | none =>
      simp [htl, hp, processBufferGo_fuel k rest.length ft rest hfuel (Nat.le_refl _)]

/-- The empty line parses as no `ResponseChunk`. -/
theorem parseResponseChunk_nil : parseResponseChunk [] = none := by decide

/-- A complete line holding a `done: true` record makes the line loop
append the fragment and stop, discarding nothing it has produced and
ignoring the remaining buffer only through the `finished` flag. -/
theorem processBuffer_done_line (ft line rest : List Char) (rc : ResponseChunk)
    (hl : lfChar ∉ line) (hp : parseResponseChunk (trimList line) = some rc)
    (hd : rc.done = true) :
    processBuffer ft (line ++ lfChar :: rest) = (ft ++ rc.response, rest, true) := by
  have htl : trimList line ≠ [] := by
    intro he
    rw [he, parseResponseChunk_nil] at hp
    exact Option.noConfusion hp
  rw [processBuffer_step ft _ line rest (splitAtNewline_append_lf rest hl)]
  simp [htl, hp, hd]

/-- A finished decoder ignores an arriving chunk. -/
theorem processChunk_finished {st : DecState} (h : st.finished = true)
    (chunk : List Nat) : processChunk st chunk = st := by
  simp [processChunk, h]

/-- A finished decoder ignores all further chunks. -/
theorem runChunks_finished {st : DecState} (h : st.finished = true) :
    ∀ chunks : List (List Nat), runChunks st chunks = st := by
  intro chunks
  induction chunks with
  | nil => rfl
  | cons c cs ih =>
    have h1 : runChunks st (c :: cs) = runChunks (processChunk st c) cs := rfl
    rw [h1, processChunk_finished h, ih]

/-- Chunk lists compose. -/
theorem runChunks_append (st : DecState) (a b : List (List Nat)) :
    runChunks st (a ++ b) = runChunks (runChunks st a) b :=
  List.foldl_append _ _ _ _

/-- When the line loop stops without a `done` record, its leftover buffer
holds no newline. -/
theorem processBuffer_not_finished_no_lf :
    ∀ (n : Nat) (ft b : List Char), b.length ≤ n →
      (processBuffer ft b).2.2 = false → lfChar ∉ (processBuffer ft b).2.1 := by
  intro n
  induction n with
  | zero =>
    intro ft b hb _
    have hbe : b = [] := List.eq_nil_of_length_eq_zero (Nat.le_zero.mp hb)
    subst hbe
    rw [processBuffer_no_newline ft [] (by simp)]
    simp
  | succ n ih =>
    intro ft b hb hfin
    cases hsp : splitAtNewline b with
    | none =>
      rw [processBuffer_no_newline ft b (not_mem_of_splitAtNewline_none hsp)]
      exact not_mem_of_splitAtNewline_none hsp
    | some p =>
      obtain ⟨line, rest⟩ := p
      have hlen : rest.length ≤ n :=
        Nat.lt_succ_iff.mp (Nat.lt_of_lt_of_le (splitAtNewline_len hsp) hb)
      by_cases htl : trimList line = []
      · have he : processBuffer ft b = processBuffer ft rest := by
          rw [processBuffer_step ft b line rest hsp]
          simp [htl]
        rw [he] at hfin ⊢
        exact ih ft rest hlen hfin
      · cases hp : parseResponseChunk (trimList line) with
        | some rc =>
          by_cases hd : rc.done = true
          · have he : processBuffer ft b = (ft ++ rc.response, rest, true) := by
              rw [processBuffer_step ft b line rest hsp]
              simp [htl, hp, hd]
            rw [he] at hfin
            simp at hfin
          · have he : processBuffer ft b = processBuffer (ft ++ rc.response) rest := by
              rw [processBuffer_step ft b line rest hsp]
              simp [htl, hp, hd]
            rw [he] at hfin ⊢
            exact ih _ rest hlen hfin
        | none =>
          have he : processBuffer ft b = processBuffer ft rest := by
            rw [processBuffer_step ft b line rest hsp]
            simp [htl, hp]
          rw [he] at hfin ⊢
          exact ih ft rest hlen hfin

/-- Decoder-state invariant: either already finished, or the buffer holds
no newline (every complete line has been consumed). -/
def validState (st : DecState) : Prop := st.finished = true ∨ lfChar ∉ st.buffer

/-- One chunk step preserves the invariant. -/
theorem processChunk_valid {st : DecState} (h : validState st)
    (chunk : List Nat) : validState (processChunk st chunk) := by
  cases hf : st.finished with
  | true => rw [processChunk_finished hf]; exact h
  | false =>
    unfold processChunk
    rw [if_neg (by simp [hf])]
    cases hfin :
        (processBuffer st.fullText (st.buffer ++ utf8Lossy chunk)).2.2 with
    | true => left; simp [hfin]
    | false =>
      right
      simp only
      exact processBuffer_not_finished_no_lf _ _ _ (Nat.le_refl _) hfin

/-- Any run from the initial state satisfies the invariant. -/
theorem runChunks_valid (chunks : List (List Nat)) :
    validState (runChunks initState chunks) := by
  have h : ∀ (cs : List (List Nat)) (st : DecState), validState st →
      validState (runChunks st cs) := by
    intro cs
    induction cs with
    | nil => intro st hst; exact hst
    | cons c rest ih =>
      intro st hst
      exact ih _ (processChunk_valid hst c)
  exact h chunks initState (Or.inr (by simp [initState]))

/-- An unfinished decoder with a clean buffer just buffers a newline-free
chunk. -/
theorem processChunk_no_newline {st : DecState} (hf : st.finished = false)
    (hb : lfChar ∉ st.buffer) {chunk : List Nat}
    (hc : lfChar ∉ utf8Lossy chunk) :
    processChunk st chunk = ⟨st.fullText, st.buffer ++ utf8Lossy chunk, false⟩ := by
  unfold processChunk
  rw [if_neg (by simp [hf])]
  have hnl : lfChar ∉ st.buffer ++ utf8Lossy chunk := by
    intro hm
    rcases List.mem_append.mp hm with h1 | h2
    · exact hb h1
    · exact hc h2
  rw [processBuffer_no_newline _ _ hnl]

/-- Newline-free chunks never change the accumulated text. -/
theorem runChunks_no_newline_fullText :
    ∀ (tails : List (List Nat)) (st : DecState), validState st →
      (∀ t ∈ tails, lfChar ∉ utf8Lossy t) →
      (runChunks st tails).fullText = st.fullText := by
  intro tails
  induction tails with
  | nil => intro st _ _; rfl
  | cons t ts ih =>
    intro st hst htails
    have h1 : runChunks st (t :: ts) = runChunks (processChunk st t) ts := rfl
    rcases hst with hf | hb
    · rw [h1, processChunk_finished hf t, runChunks_finished hf]
    · cases hf : st.finished with
      | true => rw [h1, processChunk_finished hf t, runChunks_finished hf]
      | false =>
        have ht : lfChar ∉ utf8Lossy t := htails t (List.mem_cons_self _ _)
        have hstep := processChunk_no_newline hf hb ht
        rw [h1, hstep]
        have hrec := ih ⟨st.fullText, st.buffer ++ utf8Lossy t, false⟩
          (Or.inr (by
            intro hm
            rcases List.mem_append.mp hm with h1m | h2m
            · exact hb h1m
            · exact ht h2m))
          (fun u hu => htails u (List.mem_cons_of_mem _ hu))
        exact hrec

/-! ## Claim theorems on the stream decoder and extraction -/

/-- Claim C5: if some decoded line parses as a record whose completion
flag is true, the decoder appends that record's fragment and stops,
ignoring everything after: inside the buffer, the line loop returns
immediately at the `done` line; across chunks, once the decoder has
finished, any further chunks leave the returned text unchanged. -/
theorem get_streamed_text_stops_on_done :
    (∀ (ft line rest : List Char) (rc : ResponseChunk), lfChar ∉ line →
      parseResponseChunk (trimList line) = some rc → rc.done = true →
      processBuffer ft (line ++ lfChar :: rest) = (ft ++ rc.response, rest, true)) ∧
    (∀ cs rest : List (List Nat), (runChunks initState cs).finished = true →
      get_streamed_text (cs ++ rest) = get_streamed_text cs) := by
  constructor
  · intro ft line rest rc hl hp hd
    exact processBuffer_done_line ft line rest rc hl hp hd
  · intro cs rest hfin
    unfold get_streamed_text
    rw [runChunks_append, runChunks_finished hfin]

/-- The `done: true` line used in decoder witnesses. -/
def doneLine : List Char := ("\x7b\"response\":\"hi\",\"done\":true\x7d").toList

/-- The bytes of that line plus its newline. -/
def doneChunk : List Nat := asciiBytes ("\x7b\"response\":\"hi\",\"done\":true\x7d\n")

/-- A further complete line that would extend the text if it were read. -/
def extraChunk : List Nat := asciiBytes ("\x7b\"response\":\"zz\",\"done\":false\x7d\n")

/-- Witness for C5: at concrete inputs, the line loop stops at the `done`
line discarding the trailing buffer, and a whole extra chunk after the
`done` chunk leaves the decoded text unchanged. -/
theorem get_streamed_text_stops_on_done_witness :
    processBuffer [] (doneLine ++ lfChar :: (("tail").toList)) =
      ([] ++ (ResponseChunk.mk (("hi").toList) true).response, ("tail").toList, true) ∧
    get_streamed_text ([doneChunk] ++ [extraChunk]) = get_streamed_text [doneChunk] :=
  ⟨get_streamed_text_stops_on_done.1 [] doneLine (("tail").toList)
      (ResponseChunk.mk (("hi").toList) true) (by decide) (by decide) rfl,
    get_streamed_text_stops_on_done.2 [doneChunk] [extraChunk] (by decide)⟩

/-- Claim C9: a final unterminated line is never parsed: chunks holding no
newline (in particular a trailing residual record, even one carrying a
`done` flag) contribute nothing to the returned accumulated text. -/
theorem trailing_residual_ignored (cs tails : List (List Nat))
    (h : ∀ t ∈ tails, lfChar ∉ utf8Lossy t) :
    get_streamed_text (cs ++ tails) = get_streamed_text cs := by
  unfold get_streamed_text
  rw [runChunks_append]
  exact runChunks_no_newline_fullText tails (runChunks initState cs)
    (runChunks_valid cs) h

/-- A residual `done: true` record with no newline terminator. -/
def residualChunk : List Nat := asciiBytes ("\x7b\"response\":\"y\",\"done\":true\x7d")

/-- A normal complete-line chunk. -/
def normalChunk : List Nat := asciiBytes ("\x7b\"response\":\"x\",\"done\":false\x7d\n")

/-- Witness for C9: after one complete line, a trailing unterminated
`done: true` record contributes nothing. -/
theorem trailing_residual_ignored_witness :
    get_streamed_text ([normalChunk] ++ [residualChunk]) =
      get_streamed_text [normalChunk] :=
  trailing_residual_ignored [normalChunk] [residualChunk] (by decide)

/-- The logical bytes of one complete event line whose `response` holds
the two-byte UTF-8 character U+00E9. -/
def splitCharBytes : List Nat :=
  asciiBytes ("\x7b\"response\":\"") ++ [0xC3, 0xA9] ++ asciiBytes ("\",\"done\":true\x7d\n")

/-- The same bytes as two chunks, cut between the two bytes of U+00E9. -/
def splitCharPart1 : List Nat := asciiBytes ("\x7b\"response\":\"") ++ [0xC3]

/-- Second half of the cut. -/
def splitCharPart2 : List Nat := [0xA9] ++ asciiBytes ("\",\"done\":true\x7d\n")

/-- Claim C1 (code bug): the decoder lossy-decodes each chunk separately,
so cutting the same logical bytes inside a multi-byte character changes
the accumulated text: undivided, the line decodes to `"é"`; divided
between the two bytes of `é`, each half becomes U+FFFD and the accumulated
text is two replacement characters. -/
theorem decoder_boundary_dependent :
    splitCharPart1 ++ splitCharPart2 = splitCharBytes ∧
    get_streamed_text [splitCharBytes] ≠ get_streamed_text [splitCharPart1, splitCharPart2] := by
  refine ⟨by decide, by decide⟩

/-- Claim C2 (code bug): on raw model output whose only `]` precedes its
only `[`, `extract_json_block` computes the slice `text[2..=0]`, whose
start exceeds its end: Rust panics (modelled by `Except.error`), instead
of the specified diagnose-and-continue no-op. -/
theorem extract_insights_panics_on_reversed_brackets (g : Knowledge) :
    extract_insights_step (("]a[").toList) g = Except.error () := rfl

/-- The spec's extraction-heuristic test text. -/
def heuristicRaw : List Char :=
  ("Raw output: [\x7b\"concept\":\"Gravity\",\"topic\":\"Physics\",\"definition\":\"A force\",\"example\":\"Apples fall\"\x7d] trailing junk").toList

/-- The substring of `heuristicRaw` from its first `[` to its last `]`. -/
def heuristicBlock : List Char :=
  ("[\x7b\"concept\":\"Gravity\",\"topic\":\"Physics\",\"definition\":\"A force\",\"example\":\"Apples fall\"\x7d]").toList

/-- Claim C6: on the spec's example text, extraction takes exactly the
first-`[`-to-last-`]` span, parses exactly one record, and produces a
graph whose single entry `Gravity` has definition `"A force"`, example
set `{"Apples fall"}` and related-concept set `{"Physics"}`. -/
theorem extraction_heuristic_example :
    extract_json_block heuristicRaw = Except.ok (some heuristicBlock) ∧
    parseInsightArray heuristicBlock =
      some [⟨some physicsName, some gravityName, some aForceDef, some applesFallEx, none⟩] ∧
    extract_insights_step heuristicRaw ⟨[]⟩ =
      Except.ok ⟨[(gravityName, ⟨some aForceDef, [applesFallEx], [physicsName], []⟩)]⟩ :=
  ⟨rfl, rfl, rfl⟩

end Fetch
